import Mathlib

/-!
Verification of the conversational memory and retrieval-augmented context assembly
subsystem of the ai_agent_framework repository, together with two helpers of its web
front end (the chat store and the RAG document upload page).

The memory core (SessionBuffer, MemoryStore, Retriever, MemoryManager,
ContextAssembler) is specified in the repository documentation; its definitions below
are shallow embeddings modelled from that specification.  The chat-store and upload
helpers are shallow embeddings of the TypeScript source.
-/

namespace AgentMemory

/-- Role of one conversational message, as in the data model. -/
inductive Role where
  | user
  | assistant
  | system
  deriving DecidableEq, Repr

/-- Modelled from the spec: a Turn is one message exchanged within a session,
with a role, text content and a timestamp. -/
structure Turn where
  role : Role
  content : String
  timestamp : Nat
  deriving DecidableEq, Repr

/-- Modelled from the spec: per-session bounded, ordered short-term turn history
(sliding window).  The front of the list is the oldest turn. -/
structure SessionBuffer where
  maxSize : Nat
  turns : List Turn
  deriving DecidableEq, Repr

/-- A fresh SessionBuffer with capacity m and no turns. -/
def SessionBuffer.empty (m : Nat) : SessionBuffer := ⟨m, []⟩

/-- Modelled from the spec: add appends the turn and evicts the oldest turns if the
buffer is over capacity (strict FIFO). -/
def SessionBuffer.add (b : SessionBuffer) (t : Turn) : SessionBuffer :=
  ⟨b.maxSize, (b.turns ++ [t]).drop ((b.turns ++ [t]).length - b.maxSize)⟩

/-- Modelled from the spec: recent n returns the last n turns in chronological
order, n clamped to the buffer length. -/
def SessionBuffer.recent (b : SessionBuffer) (n : Nat) : List Turn :=
  b.turns.drop (b.turns.length - n)

/-- Cumulative size of a list of turns under a caller-supplied size function. -/
def sumSize (f : Turn → Nat) (ts : List Turn) : Nat := (ts.map f).sum

/-- Worker for windowBySize: drop turns from the front (oldest first) until the
remaining suffix fits in the budget. -/
def windowGo (budget : Nat) (f : Turn → Nat) : List Turn → List Turn
  | [] => []
  | t :: ts => if sumSize f (t :: ts) ≤ budget then t :: ts else windowGo budget f ts

/-- Modelled from the spec: windowBySize returns the maximal suffix of the turns
whose cumulative size stays at most the budget (recency bias: older turns are
dropped before newer ones). -/
def SessionBuffer.windowBySize (b : SessionBuffer) (budget : Nat) (f : Turn → Nat) :
    List Turn :=
  windowGo budget f b.turns

/-- Append a whole sequence of turns one by one. -/
def addAll (b : SessionBuffer) (L : List Turn) : SessionBuffer :=
  L.foldl SessionBuffer.add b

theorem add_maxSize (b : SessionBuffer) (t : Turn) : (b.add t).maxSize = b.maxSize := rfl

theorem addAll_maxSize (b : SessionBuffer) (L : List Turn) :
    (addAll b L).maxSize = b.maxSize := by
  induction L generalizing b with
  | nil => rfl
  | cons t ts ih => simpa [addAll] using ih (b.add t)

theorem add_turns_spec (b : SessionBuffer) (A : List Turn) (t : Turn)
    (hA : b.turns = A.drop (A.length - b.maxSize)) :
    (b.add t).turns = (A ++ [t]).drop (A.length + 1 - b.maxSize) := by
  simp only [SessionBuffer.add, hA, List.drop_append_eq_append_drop, List.drop_drop,
    List.length_append, List.length_drop, List.length_cons, List.length_nil]
  congr 1
  · congr 1
    omega
  · congr 1
    omega

theorem addAll_turns_spec (L A : List Turn) (b : SessionBuffer)
    (hA : b.turns = A.drop (A.length - b.maxSize)) :
    (addAll b L).turns = (A ++ L).drop ((A ++ L).length - b.maxSize) := by
  induction L generalizing A b with
  | nil => simpa using hA
  | cons t ts ih =>
      have h1 := add_turns_spec b A t hA
      have h2 := ih (A ++ [t]) (b.add t)
        (by simpa [List.length_append, add_maxSize] using h1)
      simpa [addAll, List.append_assoc, add_maxSize, List.length_append] using h2

theorem addAll_empty_turns (m : Nat) (L : List Turn) :
    (addAll (SessionBuffer.empty m) L).turns = L.drop (L.length - m) := by
  simpa using addAll_turns_spec L [] (SessionBuffer.empty m) (by simp [SessionBuffer.empty])

/-- Claim C1: for every SessionBuffer with capacity max_size and every sequence of
N > max_size appended turns, the buffer holds at most max_size turns after every add,
eviction is strict FIFO (after every add the buffer content is exactly the most
recent turns of what was appended so far, oldest dropped first), and
recent(max_size) returns exactly the last max_size appended turns in insertion
order. -/
theorem sessionBuffer_fifo_window (m : Nat) (L : List Turn) (hN : m < L.length) :
    (addAll (SessionBuffer.empty m) L).turns.length = m ∧
    (addAll (SessionBuffer.empty m) L).recent m = L.drop (L.length - m) ∧
    ∀ n : Nat,
      (addAll (SessionBuffer.empty m) (L.take n)).turns
        = (L.take n).drop ((L.take n).length - m) ∧
      (addAll (SessionBuffer.empty m) (L.take n)).turns.length ≤ m := by
  have hT := addAll_empty_turns m L
  have hlen : (addAll (SessionBuffer.empty m) L).turns.length = m := by
    rw [hT, List.length_drop]; omega
  refine ⟨hlen, ?_, ?_⟩
  · unfold SessionBuffer.recent
    rw [hT]
    have h0 : (List.drop (L.length - m) L).length - m = 0 := by
      rw [List.length_drop]; omega
    rw [h0, List.drop_zero]
  · intro n
    have hTn := addAll_empty_turns m (L.take n)
    constructor
    · exact hTn
    · rw [hTn, List.length_drop]; omega

/-- Sample turns used by concrete witnesses. -/
def wt1 : Turn := ⟨Role.user, "Hi", 1⟩

/-- Second sample turn. -/
def wt2 : Turn := ⟨Role.assistant, "Hello, how can I help?", 2⟩

/-- Third sample turn. -/
def wt3 : Turn := ⟨Role.user, "My order is late", 3⟩

/-- Witness for claim C1 at capacity 2 and three appended turns. -/
theorem sessionBuffer_fifo_window_witness :
    2 < ([wt1, wt2, wt3] : List Turn).length ∧
    (addAll (SessionBuffer.empty 2) [wt1, wt2, wt3]).recent 2 = [wt2, wt3] := by
  refine ⟨by decide, ?_⟩
  have h := sessionBuffer_fifo_window 2 [wt1, wt2, wt3] (by decide)
  rw [h.2.1]
  decide

theorem windowGo_suffix (budget : Nat) (f : Turn → Nat) (l : List Turn) :
    windowGo budget f l <:+ l := by
  induction l with
  | nil => simp [windowGo]
  | cons t ts ih =>
      rw [windowGo]
      split
      · exact List.suffix_refl _
      · exact ih.trans (List.suffix_cons t ts)

theorem windowGo_sum_le (budget : Nat) (f : Turn → Nat) (l : List Turn) :
    sumSize f (windowGo budget f l) ≤ budget := by
  induction l with
  | nil => simp [windowGo, sumSize]
  | cons t ts ih =>
      rw [windowGo]
      split
      case isTrue h => exact h
      case isFalse h => exact ih

theorem windowGo_maximal (budget : Nat) (f : Turn → Nat) (l s : List Turn)
    (hs : s <:+ l) (hsum : sumSize f s ≤ budget) : s <:+ windowGo budget f l := by
  induction l with
  | nil => simpa [windowGo] using hs
  | cons t ts ih =>
      rw [windowGo]
      split
      case isTrue h => exact hs
      case isFalse h =>
        rcases List.suffix_cons_iff.mp hs with rfl | h2
        · exact absurd hsum h
        · exact ih h2

/-- Claim C6: windowBySize(budget, sizeFn) returns exactly the maximal suffix of the
turn sequence whose cumulative size stays at most the budget; in particular the
result is a suffix, so whenever the full window cannot fit, older turns (the front)
are dropped before newer ones. -/
theorem windowBySize_maximal_suffix (b : SessionBuffer) (budget : Nat)
    (f : Turn → Nat) :
    b.windowBySize budget f <:+ b.turns ∧
    sumSize f (b.windowBySize budget f) ≤ budget ∧
    (∀ s : List Turn, s <:+ b.turns → sumSize f s ≤ budget →
      s <:+ b.windowBySize budget f) ∧
    ∃ dropped : List Turn, b.turns = dropped ++ b.windowBySize budget f :=
  ⟨windowGo_suffix budget f b.turns,
   windowGo_sum_le budget f b.turns,
   fun s hs hsum => windowGo_maximal budget f b.turns s hs hsum,
   (windowGo_suffix budget f b.turns).elim fun d hd => ⟨d, hd.symm⟩⟩

/-- Modelled from the spec: a MemoryItem is an importance-scored long-term memory
record with a stable id, owner session, text content, importance in [0,1] and a
creation timestamp. -/
structure MemoryItem where
  id : String
  session_id : String
  content : String
  importance : ℚ
  created_at : Nat
  deriving DecidableEq, Repr

/-- Modelled from the spec: a RetrievalResult pairs a retrieved item with its
similarity score; ephemeral, produced per query. -/
structure RetrievalResult where
  item : MemoryItem
  score : ℚ
  deriving DecidableEq, Repr

/-- Ranking order on retrieval results: higher score first, ties broken by the more
recent created_at first. -/
def rankLE (a b : RetrievalResult) : Prop :=
  b.score < a.score ∨ (a.score = b.score ∧ b.item.created_at ≤ a.item.created_at)

instance rankLE.decidableRel : DecidableRel rankLE := fun a b =>
  inferInstanceAs (Decidable
    (b.score < a.score ∨ (a.score = b.score ∧ b.item.created_at ≤ a.item.created_at)))

instance rankLE.isTotal : IsTotal RetrievalResult rankLE where
  total a b := by
    rcases lt_trichotomy a.score b.score with h | h | h
    · exact Or.inr (Or.inl h)
    · rcases le_total b.item.created_at a.item.created_at with hc | hc
      · exact Or.inl (Or.inr ⟨h, hc⟩)
      · exact Or.inr (Or.inr ⟨h.symm, hc⟩)
    · exact Or.inl (Or.inl h)

instance rankLE.isTrans : IsTrans RetrievalResult rankLE where
  trans a b c hab hbc := by
    rcases hab with h1 | ⟨h1, h1c⟩
    · rcases hbc with h2 | ⟨h2, h2c⟩
      · exact Or.inl (h2.trans h1)
      · exact Or.inl (lt_of_le_of_lt (le_of_eq h2.symm) h1)
    · rcases hbc with h2 | ⟨h2, h2c⟩
      · exact Or.inl (lt_of_lt_of_le h2 (le_of_eq h1.symm))
      · exact Or.inr ⟨h1.trans h2, h2c.trans h1c⟩

/-- Sort retrieval results by score descending, ties broken by recency. -/
def sortResults (rs : List RetrievalResult) : List RetrievalResult :=
  List.insertionSort rankLE rs

/-- Modelled from the spec: search embeds the query, asks the VectorIndex for
top-k neighbors (the index is passed in as a capability), discards results with
score below the threshold, applies exact-match metadata filters before truncation
to k, and returns the survivors ranked by score descending with ties broken by the
more recent created_at first. -/
def searchIndex (index : String → Nat → List RetrievalResult) (query : String)
    (k : Nat) (scoreThreshold : ℚ) (filterP : MemoryItem → Bool) :
    List RetrievalResult :=
  (sortResults (((index query k).filter
      (fun r => decide (scoreThreshold ≤ r.score))).filter
      (fun r => filterP r.item))).take k

/-- Claim C5: for every search query, the returned result list is sorted
non-increasing by score, and any two results with equal score appear with the more
recent created_at first. -/
theorem search_results_sorted (index : String → Nat → List RetrievalResult)
    (query : String) (k : Nat) (scoreThreshold : ℚ) (filterP : MemoryItem → Bool) :
    List.Pairwise
      (fun a b => b.score ≤ a.score ∧
        (a.score = b.score → b.item.created_at ≤ a.item.created_at))
      (searchIndex index query k scoreThreshold filterP) := by
  have hs : List.Pairwise rankLE
      (sortResults (((index query k).filter
        (fun r => decide (scoreThreshold ≤ r.score))).filter
        (fun r => filterP r.item))) :=
    List.sorted_insertionSort rankLE _
  have ht := List.Pairwise.sublist (List.take_sublist k _) hs
  refine ht.imp ?_
  intro a b hab
  rcases hab with h | ⟨h, hc⟩
  · exact ⟨le_of_lt h, fun he => absurd (he ▸ h) (lt_irrefl _)⟩
  · exact ⟨le_of_eq h.symm, fun _ => hc⟩

/-- Error taxonomy of the memory subsystem, modelled from the spec. -/
inductive MError where
  | validation
  | notFound
  | unavailable
  | collectionMissing
  deriving DecidableEq, Repr

/-- Modelled from the spec: durable long-term memory of importance-scored items,
backed by a vector collection; represented by the list of stored items (most
recently written first). -/
structure MemoryStore where
  items : List MemoryItem
  deriving DecidableEq, Repr

/-- Validation predicate of put: importance must lie in [0,1] and content must be
non-empty. -/
def MemoryItem.validB (i : MemoryItem) : Bool :=
  decide (0 ≤ i.importance) && decide (i.importance ≤ 1) && !(i.content == "")

/-- Modelled from the spec: put validates the item, and on success writes it to the
backing VectorIndex, overwriting any previous item with the same id (last-writer
wins per id).  The second component records the writes issued to the backing
VectorIndex by this call. -/
def putCalls (s : MemoryStore) (item : MemoryItem) :
    Except MError MemoryStore × List MemoryItem :=
  if item.validB then
    (Except.ok ⟨item :: s.items.filter (fun j => !(j.id == item.id))⟩, [item])
  else
    (Except.error MError.validation, [])

/-- Modelled from the spec: put, forgetting the write log. -/
def MemoryStore.put (s : MemoryStore) (item : MemoryItem) :
    Except MError MemoryStore :=
  (putCalls s item).1

/-- Modelled from the spec: point lookup of an item by id. -/
def MemoryStore.getById (s : MemoryStore) (id : String) : Option MemoryItem :=
  s.items.find? (fun j => j.id == id)

/-- Modelled from the spec: retries put on transient unavailability only, with the
given attempt budget; any other outcome is surfaced to the caller at once. -/
def putWithRetry : Nat → MemoryStore → MemoryItem → Except MError MemoryStore
  | 0, _, _ => Except.error MError.unavailable
  | fuel + 1, s, item =>
      match (putCalls s item).1 with
      | Except.error MError.unavailable => putWithRetry fuel s item
      | r => r

/-- Claim C4: calling put twice with the same id leaves exactly one retrievable
item under that id, whose content is the one supplied by the second call (re-put
with the same id overwrites; put is idempotent on id). -/
theorem put_idempotent_on_id (s : MemoryStore) (i1 i2 : MemoryItem)
    (_hid : i1.id = i2.id) (h1 : i1.validB = true) (h2 : i2.validB = true) :
    ∃ s1 s2 : MemoryStore, s.put i1 = Except.ok s1 ∧ s1.put i2 = Except.ok s2 ∧
      s2.items.filter (fun j => j.id == i2.id) = [i2] ∧
      s2.getById i2.id = some i2 := by
  refine ⟨⟨i1 :: s.items.filter (fun j => !(j.id == i1.id))⟩,
    ⟨i2 :: (i1 :: s.items.filter (fun j => !(j.id == i1.id))).filter
      (fun j => !(j.id == i2.id))⟩, ?_, ?_, ?_, ?_⟩
  · simp [MemoryStore.put, putCalls, h1]
  · simp [MemoryStore.put, putCalls, h2]
  · rw [List.filter_cons_of_pos (by simp)]
    rw [List.filter_filter]
    simp
  · simp [MemoryStore.getById, List.find?]

/-- Item used by the witnesses for claims C4 and C8. -/
def wItem1 : MemoryItem := ⟨"id1", "s1", "first", 1/2, 10⟩

/-- Second witness item: same id, different content. -/
def wItem2 : MemoryItem := ⟨"id1", "s1", "second", 3/4, 11⟩

/-- Witness for claim C4 at two concrete valid items sharing one id. -/
theorem put_idempotent_on_id_witness :
    wItem1.id = wItem2.id ∧ wItem1.validB = true ∧ wItem2.validB = true ∧
    ∃ s1 s2 : MemoryStore,
      (MemoryStore.mk []).put wItem1 = Except.ok s1 ∧ s1.put wItem2 = Except.ok s2 ∧
      s2.items.filter (fun j => j.id == wItem2.id) = [wItem2] ∧
      s2.getById wItem2.id = some wItem2 :=
  ⟨rfl, by norm_num [wItem1, MemoryItem.validB]; decide, by norm_num [wItem2, MemoryItem.validB]; decide,
    put_idempotent_on_id ⟨[]⟩ wItem1 wItem2 rfl
      (by norm_num [wItem1, MemoryItem.validB]; decide) (by norm_num [wItem2, MemoryItem.validB]; decide)⟩

/-- Claim C8: put fails with ValidationError precisely when the importance lies
outside [0,1] or the content is empty; in that case no write is issued to the
backing VectorIndex, and the error is surfaced unchanged through the retry wrapper
(never retried). -/
theorem put_validation (s : MemoryStore) (item : MemoryItem) :
    ((putCalls s item).1 = Except.error MError.validation ↔
      (item.importance < 0 ∨ 1 < item.importance ∨ item.content = "")) ∧
    (item.validB = false →
      (putCalls s item).2 = [] ∧
      ∀ fuel : Nat, putWithRetry (fuel + 1) s item = Except.error MError.validation) := by
  have hval : item.validB = true ↔
      (0 ≤ item.importance ∧ item.importance ≤ 1 ∧ ¬item.content = "") := by
    simp [MemoryItem.validB, and_assoc]
  constructor
  · constructor
    · intro h
      by_contra hc
      push_neg at hc
      have hv : item.validB = true := by
        rw [hval]
        exact ⟨hc.1, hc.2.1, hc.2.2⟩
      simp [putCalls, hv] at h
    · intro h
      have hv : item.validB = false := by
        rcases h with h | h | h
        · simp [MemoryItem.validB, not_le.mpr h]
        · simp [MemoryItem.validB, not_le.mpr h]
        · simp [MemoryItem.validB, h]
      simp [putCalls, hv]
  · intro hv
    refine ⟨by simp [putCalls, hv], fun fuel => ?_⟩
    rw [putWithRetry]
    simp [putCalls, hv]

/-- Witness for claim C8 at a concrete invalid item (empty content). -/
theorem put_validation_witness :
    ((putCalls ⟨[]⟩ ⟨"id2", "s1", "", 1/2, 3⟩).1 = Except.error MError.validation ↔
      ((1:ℚ)/2 < 0 ∨ 1 < (1:ℚ)/2 ∨ ("" : String) = "")) ∧
    ((⟨"id2", "s1", "", 1/2, 3⟩ : MemoryItem).validB = false →
      (putCalls ⟨[]⟩ ⟨"id2", "s1", "", 1/2, 3⟩).2 = [] ∧
      ∀ fuel : Nat, putWithRetry (fuel + 1) ⟨[]⟩ ⟨"id2", "s1", "", 1/2, 3⟩
        = Except.error MError.validation) :=
  put_validation ⟨[]⟩ ⟨"id2", "s1", "", 1/2, 3⟩

/-- Modelled from the spec: a ContextWindow combines the short-term turns, the
packed retrieval results and the total size in budget units; built fresh per
request. -/
structure ContextWindow where
  turns : List Turn
  retrieved : List RetrievalResult
  total_size : Nat
  deriving Repr

/-- Cumulative size of a list of retrieval results under a caller-supplied size
function. -/
def rsumSize (g : RetrievalResult → Nat) (rs : List RetrievalResult) : Nat :=
  (rs.map g).sum

/-- Modelled from the spec: greedily pack results into the remaining budget in the
given order, stopping at the first item that would exceed the budget (no partial
items). -/
def greedyPack (g : RetrievalResult → Nat) (budget : Nat) :
    List RetrievalResult → List RetrievalResult
  | [] => []
  | r :: rest =>
      if g r ≤ budget then r :: greedyPack g (budget - g r) rest else []

theorem greedyPack_sum_le (g : RetrievalResult → Nat) (budget : Nat)
    (rs : List RetrievalResult) :
    rsumSize g (greedyPack g budget rs) ≤ budget := by
  induction rs generalizing budget with
  | nil => simp [greedyPack, rsumSize]
  | cons r rest ih =>
      rw [greedyPack]
      split
      case isTrue h =>
        have hrest := ih (budget - g r)
        simp only [rsumSize, List.map_cons, List.sum_cons] at hrest ⊢
        omega
      case isFalse h => simp [rsumSize]

/-- Short-term share of the budget: a caller-configurable percentage (default 40). -/
def stBudget (budget stFracPct : Nat) : Nat := budget * stFracPct / 100

theorem stBudget_le (budget stFracPct : Nat) (hp : stFracPct ≤ 100) :
    stBudget budget stFracPct ≤ budget := by
  calc budget * stFracPct / 100 ≤ budget * 100 / 100 :=
        Nat.div_le_div_right (Nat.mul_le_mul_left _ hp)
    _ = budget := Nat.mul_div_cancel _ (by norm_num)

/-- Build a ContextWindow whose total size is the cumulative size of its parts. -/
def mkWindow (sizeFn : Turn → Nat) (rSizeFn : RetrievalResult → Nat)
    (ts : List Turn) (rs : List RetrievalResult) : ContextWindow :=
  ⟨ts, rs, sumSize sizeFn ts + rsumSize rSizeFn rs⟩

/-- Modelled from the spec: remove retrieved entries whose normalized content is
already present among the recent turns (deduplication). -/
def dedupAgainst (norm : String → String) (recentTurns : List Turn)
    (results : List RetrievalResult) : List RetrievalResult :=
  results.filter
    (fun r => !(recentTurns.any (fun t => norm t.content == norm r.item.content)))

/-- Modelled from the spec: ContextAssembler.build fetches the short-term window
under the short-term share of the budget, retrieves candidates (skipped when the
query is empty, in which case the full budget goes to the recent turns), removes
near-duplicates, greedily packs the retrieval results into the remaining budget in
score-descending order, and degrades to a short-term-only window when the
retriever fails. -/
def build (buf : SessionBuffer)
    (retriever : String → Nat → Except MError (List RetrievalResult))
    (query : String) (budget : Nat) (retrievalK : Nat) (stFracPct : Nat)
    (sizeFn : Turn → Nat) (rSizeFn : RetrievalResult → Nat)
    (norm : String → String) : ContextWindow :=
  if query = "" then
    mkWindow sizeFn rSizeFn (buf.windowBySize budget sizeFn) []
  else
    match retriever query retrievalK with
    | Except.error _ =>
        mkWindow sizeFn rSizeFn
          (buf.windowBySize (stBudget budget stFracPct) sizeFn) []
    | Except.ok results =>
        mkWindow sizeFn rSizeFn
          (buf.windowBySize (stBudget budget stFracPct) sizeFn)
          (greedyPack rSizeFn
            (budget -
              sumSize sizeFn (buf.windowBySize (stBudget budget stFracPct) sizeFn))
            (sortResults (dedupAgainst norm
              (buf.windowBySize (stBudget budget stFracPct) sizeFn) results)))

/-- Claim C2: for every budget B, every session state and every call to
ContextAssembler.build with budget B, the returned ContextWindow satisfies
total_size at most B (the caller-supplied budget is never exceeded). -/
theorem build_total_size_le (buf : SessionBuffer)
    (retriever : String → Nat → Except MError (List RetrievalResult))
    (query : String) (budget : Nat) (retrievalK : Nat) (stFracPct : Nat)
    (sizeFn : Turn → Nat) (rSizeFn : RetrievalResult → Nat)
    (norm : String → String) (hp : stFracPct ≤ 100) :
    (build buf retriever query budget retrievalK stFracPct sizeFn rSizeFn
      norm).total_size ≤ budget := by
  unfold build
  split
  · simpa [mkWindow, rsumSize, SessionBuffer.windowBySize] using
      windowGo_sum_le budget sizeFn buf.turns
  · have hst : sumSize sizeFn (buf.windowBySize (stBudget budget stFracPct) sizeFn)
        ≤ budget :=
      le_trans (windowGo_sum_le _ _ _) (stBudget_le budget stFracPct hp)
    split
    · simpa [mkWindow, rsumSize] using hst
    · next results _ =>
        have hpack := greedyPack_sum_le rSizeFn
          (budget -
            sumSize sizeFn (buf.windowBySize (stBudget budget stFracPct) sizeFn))
          (sortResults (dedupAgainst norm
            (buf.windowBySize (stBudget budget stFracPct) sizeFn) results))
        simp only [mkWindow]
        omega

/-- Witness for claim C2 at a concrete buffer, budget and retriever. -/
theorem build_total_size_le_witness :
    (40 : Nat) ≤ 100 ∧
    (build ⟨10, [wt1, wt2, wt3]⟩ (fun _ _ => Except.ok [⟨wItem1, 1⟩]) "order" 30 3 40
      (fun t => t.content.length) (fun r => r.item.content.length) id).total_size
      ≤ 30 :=
  ⟨by norm_num,
    build_total_size_le ⟨10, [wt1, wt2, wt3]⟩ (fun _ _ => Except.ok [⟨wItem1, 1⟩])
      "order" 30 3 40 (fun t => t.content.length) (fun r => r.item.content.length)
      id (by norm_num)⟩

/-- Claim C7: if the Retriever fails with UnavailableError on every call, then
ContextAssembler.build still returns a non-error ContextWindow containing only the
short-term recent turns: the retrieved list is empty and the turns are exactly the
short-term window, so short-term turns are never dropped because retrieval is
unavailable. -/
theorem build_degrades_on_unavailable (buf : SessionBuffer)
    (retriever : String → Nat → Except MError (List RetrievalResult))
    (query : String) (budget : Nat) (retrievalK : Nat) (stFracPct : Nat)
    (sizeFn : Turn → Nat) (rSizeFn : RetrievalResult → Nat)
    (norm : String → String)
    (hr : ∀ q k, retriever q k = Except.error MError.unavailable) :
    (build buf retriever query budget retrievalK stFracPct sizeFn rSizeFn
      norm).retrieved = [] ∧
    (build buf retriever query budget retrievalK stFracPct sizeFn rSizeFn
      norm).turns
      = buf.windowBySize (if query = "" then budget else stBudget budget stFracPct)
          sizeFn := by
  unfold build
  split
  case isTrue hq => simp [mkWindow, hq]
  case isFalse hq => rw [hr query retrievalK]; simp [mkWindow, hq]

/-- Witness for claim C7 at a concrete always-unavailable retriever. -/
theorem build_degrades_on_unavailable_witness :
    (∀ q k, (fun (_ : String) (_ : Nat) =>
        (Except.error MError.unavailable : Except MError (List RetrievalResult))) q k
      = Except.error MError.unavailable) ∧
    (build ⟨10, [wt1, wt2, wt3]⟩
      (fun _ _ => Except.error MError.unavailable) "order" 30 3 40
      (fun t => t.content.length) (fun r => r.item.content.length) id).retrieved
      = [] ∧
    (build ⟨10, [wt1, wt2, wt3]⟩
      (fun _ _ => Except.error MError.unavailable) "order" 30 3 40
      (fun t => t.content.length) (fun r => r.item.content.length) id).turns
      = SessionBuffer.windowBySize ⟨10, [wt1, wt2, wt3]⟩
          (if ("order" : String) = "" then 30 else stBudget 30 40)
          (fun t => t.content.length) :=
  ⟨fun _ _ => rfl,
    build_degrades_on_unavailable ⟨10, [wt1, wt2, wt3]⟩
      (fun _ _ => Except.error MError.unavailable) "order" 30 3 40
      (fun t => t.content.length) (fun r => r.item.content.length) id
      (fun _ _ => rfl)⟩

/-- Modelled from the spec: MemoryManager configuration, with a pluggable
importance-scoring heuristic, the archive threshold, the auto-archive switch and
the capacity given to newly created session buffers. -/
structure MMConfig where
  scoreFn : Turn → ℚ
  archiveThreshold : ℚ
  autoArchive : Bool
  defaultMaxSize : Nat

/-- Modelled from the spec: MemoryManager state, one SessionBuffer per session plus
the long-term store contents. -/
structure MMState where
  buffers : List (String × SessionBuffer)
  store : List MemoryItem

/-- Initial MemoryManager state: no sessions, empty long-term store. -/
def MMState.start : MMState := ⟨[], []⟩

/-- Modelled from the spec: the MemoryItem created for an archived turn, tagged
with the session id and carrying the computed importance. -/
def mkArchiveItem (sid : String) (t : Turn) (imp : ℚ) : MemoryItem :=
  ⟨sid ++ "-" ++ toString t.timestamp, sid, t.content, imp, t.timestamp⟩

/-- Modelled from the spec: recordTurn appends the turn to that session's
SessionBuffer (creating one if absent), computes the turn's importance with the
pluggable heuristic, and archives the turn to the long-term store exactly when
auto-archiving is on and the importance reaches the archive threshold. -/
def recordTurn (cfg : MMConfig) (s : MMState) (sid : String) (t : Turn) : MMState :=
  { buffers :=
      if s.buffers.any (fun p => p.1 == sid) then
        s.buffers.map (fun p => if p.1 == sid then (p.1, p.2.add t) else p)
      else
        s.buffers ++ [(sid, (SessionBuffer.empty cfg.defaultMaxSize).add t)]
    store :=
      if cfg.autoArchive && decide (cfg.archiveThreshold ≤ cfg.scoreFn t) then
        mkArchiveItem sid t (cfg.scoreFn t) :: s.store
      else s.store }

/-- Run a sequence of recordTurn events against a MemoryManager state. -/
def runEvents (cfg : MMConfig) (s : MMState) (events : List (String × Turn)) :
    MMState :=
  events.foldl (fun st e => recordTurn cfg st e.1 e.2) s

theorem runEvents_store_importance (cfg : MMConfig) (events : List (String × Turn))
    (s : MMState) (hs : ∀ i ∈ s.store, cfg.archiveThreshold ≤ i.importance) :
    ∀ i ∈ (runEvents cfg s events).store, cfg.archiveThreshold ≤ i.importance := by
  induction events generalizing s with
  | nil => exact hs
  | cons e es ih =>
      apply ih
      intro i hi
      simp only [recordTurn] at hi
      split at hi
      case isTrue hcond =>
        rcases List.mem_cons.mp hi with rfl | hmem
        · have := (Bool.and_eq_true _ _).mp hcond
          exact of_decide_eq_true this.2
        · exact hs i hmem
      case isFalse hcond => exact hs i hi

/-- Claim C3: for every turn processed by recordTurn's automatic archiving path,
if the turn's computed importance is strictly below archive_threshold, then no
MemoryItem for that turn is ever persisted to the store, in any reachable state
(after any number of recordTurn events from the initial state). -/
theorem recordTurn_below_threshold_never_persisted (cfg : MMConfig)
    (events : List (String × Turn)) (sid : String) (t : Turn)
    (h : cfg.scoreFn t < cfg.archiveThreshold) (n : Nat) :
    mkArchiveItem sid t (cfg.scoreFn t) ∉
      (runEvents cfg MMState.start (events.take n)).store := by
  intro hmem
  have hle := runEvents_store_importance cfg (events.take n) MMState.start
    (by intro i hi; simp [MMState.start] at hi) _ hmem
  simp only [mkArchiveItem] at hle
  exact absurd hle (not_le.mpr h)

/-- Configuration used by the witness for claim C3. -/
def wCfg : MMConfig := ⟨fun _ => 0, 1, true, 10⟩

/-- Witness for claim C3 at a concrete configuration, turn and event sequence. -/
theorem recordTurn_below_threshold_never_persisted_witness :
    wCfg.scoreFn wt1 < wCfg.archiveThreshold ∧
    mkArchiveItem "s1" wt1 (wCfg.scoreFn wt1) ∉
      (runEvents wCfg MMState.start ([("s1", wt1), ("s1", wt2)].take 2)).store :=
  ⟨by norm_num [wCfg],
    recordTurn_below_threshold_never_persisted wCfg [("s1", wt1), ("s1", wt2)]
      "s1" wt1 (by norm_num [wCfg]) 2⟩

end AgentMemory

namespace AgentWeb

open AgentMemory (Role)

/-- A chat message of the web front end: role and content, as in the Message
interface of the types module. -/
structure Message where
  role : Role
  content : String
  deriving DecidableEq, Repr

/-- The zustand chat store state: messages plus the scalar fields. -/
structure ChatState where
  messages : List Message
  isLoading : Bool
  sessionId : String
  model : String
  provider : String
  deriving DecidableEq, Repr

/-- Replace the content of the last message of the list, leaving everything else
unchanged; the empty list is returned unchanged.  This embeds the array update
messages[messages.length - 1] = { ...last, content } guarded by length > 0. -/
def setLastContent (content : String) : List Message → List Message
  | [] => []
  | [m] => [{ m with content := content }]
  | m :: m2 :: ms => m :: setLastContent content (m2 :: ms)

/-- updateLastMessage of the chat store: when the message list is non-empty it
replaces the last message's content, otherwise it leaves the state unchanged; the
other store fields are not touched. -/
def updateLastMessage (content : String) (s : ChatState) : ChatState :=
  { s with messages := setLastContent content s.messages }

theorem setLastContent_length (c : String) (l : List Message) :
    (setLastContent c l).length = l.length := by
  induction l with
  | nil => rfl
  | cons m ms ih =>
      cases ms with
      | nil => rfl
      | cons m2 ms2 => simp only [setLastContent, List.length_cons, ih]

theorem setLastContent_ne_nil (c : String) (l : List Message) (h : l ≠ []) :
    setLastContent c l ≠ [] := by
  cases l with
  | nil => exact absurd rfl h
  | cons m ms =>
      cases ms with
      | nil => simp [setLastContent]
      | cons m2 ms2 => simp [setLastContent]

theorem setLastContent_dropLast (c : String) (l : List Message) :
    (setLastContent c l).dropLast = l.dropLast := by
  induction l with
  | nil => rfl
  | cons m ms ih =>
      cases ms with
      | nil => rfl
      | cons m2 ms2 =>
          rw [setLastContent,
            List.dropLast_cons_of_ne_nil (setLastContent_ne_nil c (m2 :: ms2) (by simp)),
            List.dropLast_cons_of_ne_nil (by simp : (m2 : Message) :: ms2 ≠ []), ih]

theorem setLastContent_map_role (c : String) (l : List Message) :
    (setLastContent c l).map Message.role = l.map Message.role := by
  induction l with
  | nil => rfl
  | cons m ms ih =>
      cases ms with
      | nil => rfl
      | cons m2 ms2 => simp only [setLastContent, List.map_cons, ih]

theorem setLastContent_getLast? (c : String) (l : List Message) (m : Message)
    (h : l.getLast? = some m) :
    (setLastContent c l).getLast? = some { m with content := c } := by
  induction l with
  | nil => simp at h
  | cons m1 ms ih =>
      cases ms with
      | nil =>
          simp only [List.getLast?_singleton, Option.some.injEq] at h
          subst h
          rfl
      | cons m2 ms2 =>
          rw [List.getLast?_cons_cons] at h
          obtain ⟨x, xs, hx⟩ :=
            List.exists_cons_of_ne_nil (setLastContent_ne_nil c (m2 :: ms2) (by simp))
          rw [setLastContent, hx, List.getLast?_cons_cons, ← hx]
          exact ih h

/-- Claim C9: for every chat-store state and string c, updateLastMessage preserves
the length of the messages list, leaves every message except the last unchanged
(same dropLast), preserves every message's role, replaces only the last message's
content with c when the list is non-empty, leaves the state identical when the list
is empty, and never touches the other store fields. -/
theorem updateLastMessage_frame (s : ChatState) (c : String) :
    (updateLastMessage c s).messages.length = s.messages.length ∧
    (updateLastMessage c s).messages.dropLast = s.messages.dropLast ∧
    (updateLastMessage c s).messages.map Message.role = s.messages.map Message.role ∧
    (s.messages = [] → updateLastMessage c s = s) ∧
    (∀ m : Message, s.messages.getLast? = some m →
      (updateLastMessage c s).messages.getLast? = some { m with content := c }) ∧
    (updateLastMessage c s).isLoading = s.isLoading ∧
    (updateLastMessage c s).sessionId = s.sessionId ∧
    (updateLastMessage c s).model = s.model ∧
    (updateLastMessage c s).provider = s.provider := by
  refine ⟨setLastContent_length c s.messages, setLastContent_dropLast c s.messages,
    setLastContent_map_role c s.messages, ?_, ?_, rfl, rfl, rfl, rfl⟩
  · intro h
    cases s with
    | mk msgs il sid mdl prov =>
        simp only at h
        subst h
        rfl
  · intro m hm
    exact setLastContent_getLast? c s.messages m hm

/-- Split a character list at every occurrence of two consecutive newline
characters, non-overlapping, left to right; this embeds the JavaScript
String.split on the two-newline separator used by the upload handler. -/
def splitNN : List Char → List (List Char)
  | [] => [[]]
  | [c] => [[c]]
  | c :: d :: rest =>
      if c = '\n' ∧ d = '\n' then [] :: splitNN rest
      else
        match splitNN (d :: rest) with
        | [] => [[c]]
        | b :: bs => (c :: b) :: bs

/-- Join blocks back with the two-newline separator; inverse of splitNN. -/
def joinNN : List (List Char) → List Char
  | [] => []
  | [b] => b
  | b :: b2 :: bs => b ++ '\n' :: '\n' :: joinNN (b2 :: bs)

theorem splitNN_ne_nil (l : List Char) : splitNN l ≠ [] := by
  induction l using splitNN.induct with
  | case1 => simp [splitNN]
  | case2 c => simp [splitNN]
  | case3 c d rest hcd ih =>
      rw [splitNN, if_pos hcd]
      simp
  | case4 c d rest hcd hnil ih =>
      rw [splitNN, if_neg hcd, hnil]
      simp
  | case5 c d rest hcd b bs hcons ih =>
      rw [splitNN, if_neg hcd, hcons]
      simp

theorem joinNN_cons_head (c : Char) (b : List Char) (bs : List (List Char)) :
    joinNN ((c :: b) :: bs) = c :: joinNN (b :: bs) := by
  cases bs <;> simp [joinNN]

theorem joinNN_splitNN (l : List Char) : joinNN (splitNN l) = l := by
  induction l using splitNN.induct with
  | case1 => rfl
  | case2 c => rfl
  | case3 c d rest hcd ih =>
      obtain ⟨rfl, rfl⟩ := hcd
      rw [splitNN, if_pos ⟨rfl, rfl⟩]
      obtain ⟨b, bs, hx⟩ := List.exists_cons_of_ne_nil (splitNN_ne_nil rest)
      rw [hx]
      show joinNN ([] :: b :: bs) = '\n' :: '\n' :: rest
      rw [joinNN, ← hx, ih]
      rfl
  | case4 c d rest hcd hnil ih => exact absurd hnil (splitNN_ne_nil (d :: rest))
  | case5 c d rest hcd b bs hcons ih =>
      rw [splitNN, if_neg hcd, hcons, joinNN_cons_head, ← hcons, ih]

theorem mem_joinNN_of_mem {ch : Char} {b : List Char} {bs : List (List Char)}
    (hb : b ∈ bs) (hch : ch ∈ b) : ch ∈ joinNN bs := by
  induction bs with
  | nil => simp at hb
  | cons b2 bs2 ih =>
      cases bs2 with
      | nil =>
          rw [List.mem_singleton] at hb
          subst hb
          exact hch
      | cons b3 bs3 =>
          rw [joinNN]
          rcases List.mem_cons.mp hb with rfl | hb2
          · exact List.mem_append_left _ hch
          · exact List.mem_append_right _
              (List.mem_cons_of_mem _ (List.mem_cons_of_mem _ (ih hb2)))

theorem mem_of_mem_joinNN {ch : Char} {bs : List (List Char)}
    (h : ch ∈ joinNN bs) : (∃ b ∈ bs, ch ∈ b) ∨ ch = '\n' := by
  induction bs with
  | nil => simp [joinNN] at h
  | cons b2 bs2 ih =>
      cases bs2 with
      | nil => exact Or.inl ⟨b2, List.mem_singleton_self b2, h⟩
      | cons b3 bs3 =>
          rw [joinNN] at h
          rcases List.mem_append.mp h with h1 | h1
          · exact Or.inl ⟨b2, List.mem_cons_self _ _, h1⟩
          · rcases List.mem_cons.mp h1 with rfl | h2
            · exact Or.inr rfl
            · rcases List.mem_cons.mp h2 with rfl | h3
              · exact Or.inr rfl
              · rcases ih h3 with ⟨b, hb, hchb⟩ | hnl
                · exact Or.inl ⟨b, List.mem_cons_of_mem _ hb, hchb⟩
                · exact Or.inr hnl

/-- Whitespace predicate used by trimming, matching the characters the front end
trims from both ends of a block. -/
def isWs (c : Char) : Bool := c.isWhitespace

/-- Trim whitespace from both ends of a character list; this embeds the
JavaScript String.trim used by the upload handler. -/
def trimChars (l : List Char) : List Char :=
  ((l.dropWhile isWs).reverse.dropWhile isWs).reverse

theorem trimChars_eq_nil_iff (l : List Char) :
    trimChars l = [] ↔ ∀ ch ∈ l, isWs ch = true := by
  unfold trimChars
  rw [List.reverse_eq_nil_iff, List.dropWhile_eq_nil_iff]
  constructor
  · intro h ch hch
    rcases List.mem_append.mp
        ((List.takeWhile_append_dropWhile isWs l) ▸ hch) with h1 | h1
    · exact List.mem_takeWhile_imp h1
    · exact h ch (List.mem_reverse.mpr h1)
  · intro h ch hch
    exact h ch ((List.dropWhile_sublist isWs).mem (List.mem_reverse.mp hch))

theorem all_ws_of_trim_all_ws (l : List Char)
    (h : ∀ ch ∈ trimChars l, isWs ch = true) : ∀ ch ∈ l, isWs ch = true := by
  intro ch hch
  rcases List.mem_append.mp
      ((List.takeWhile_append_dropWhile isWs l) ▸ hch) with h1 | h1
  · exact List.mem_takeWhile_imp h1
  · have h2 : ch ∈ (l.dropWhile isWs).reverse := List.mem_reverse.mpr h1
    rcases List.mem_append.mp
        ((List.takeWhile_append_dropWhile isWs (l.dropWhile isWs).reverse) ▸ h2)
      with h3 | h3
    · exact List.mem_takeWhile_imp h3
    · exact h ch (List.mem_reverse.mpr h3)

theorem exists_non_ws_of_trim_ne_nil (l : List Char) (h : trimChars l ≠ []) :
    ∃ ch ∈ trimChars l, isWs ch = false := by
  by_contra hc
  push_neg at hc
  have hall : ∀ ch ∈ trimChars l, isWs ch = true := by
    intro ch hch
    simpa using hc ch hch
  exact h ((trimChars_eq_nil_iff l).mpr (all_ws_of_trim_all_ws l hall))

theorem all_blocks_ws_iff (l : List Char) :
    (∀ b ∈ splitNN l, trimChars b = []) ↔ trimChars l = [] := by
  rw [trimChars_eq_nil_iff]
  constructor
  · intro h ch hch
    rcases mem_of_mem_joinNN ((joinNN_splitNN l) ▸ hch) with ⟨b, hb, hchb⟩ | hnl
    · exact (trimChars_eq_nil_iff b).mp (h b hb) ch hchb
    · subst hnl
      decide
  · intro h b hb
    rw [trimChars_eq_nil_iff]
    intro ch hch
    exact h ch ((joinNN_splitNN l) ▸ mem_joinNN_of_mem hb hch)

/-- A document sent to the upload endpoint: trimmed content plus the manual-source
metadata attached by the page. -/
structure DocUpload where
  content : List Char
  source : String
  deriving DecidableEq, Repr

/-- handleUpload of the RAG page: reject when the whole textarea trims to nothing
(no upload request is made), otherwise send the blank-line-separated blocks that
contain non-whitespace, each trimmed, in their original order, tagged with the
manual source. -/
def handleUploadDocs (documents : List Char) : Option (List DocUpload) :=
  if trimChars documents = [] then none
  else some (((splitNN documents).filter (fun b => !(trimChars b).isEmpty)).map
      (fun b => ⟨trimChars b, "manual"⟩))

/-- Claim C10: the document list handleUpload sends consists exactly of the
blank-line-separated blocks of the input that contain non-whitespace, each with
its content trimmed, in their original order; no uploaded document has empty or
whitespace-only content, and an input with no such block is rejected before any
upload request is made. -/
theorem handleUpload_spec (documents : List Char) :
    (handleUploadDocs documents = none ↔
      ∀ b ∈ splitNN documents, trimChars b = []) ∧
    ∀ docs : List DocUpload, handleUploadDocs documents = some docs →
      docs = ((splitNN documents).filter (fun b => !(trimChars b).isEmpty)).map
          (fun b => ⟨trimChars b, "manual"⟩) ∧
      docs ≠ [] ∧
      ∀ d ∈ docs, d.content ≠ [] ∧ ∃ ch ∈ d.content, isWs ch = false := by
  constructor
  · rw [all_blocks_ws_iff]
    unfold handleUploadDocs
    split
    · simpa
    · simpa
  · intro docs hdocs
    unfold handleUploadDocs at hdocs
    split at hdocs
    · exact absurd hdocs (by simp)
    · next hne =>
        have hdocs2 := Option.some.inj hdocs
        refine ⟨hdocs2.symm, ?_, ?_⟩
        · intro hnil
          rw [hnil] at hdocs2
          have hfil := List.map_eq_nil_iff.mp hdocs2
          have hall : ∀ b ∈ splitNN documents, trimChars b = [] := by
            intro b hb
            have := List.filter_eq_nil_iff.mp hfil b hb
            simpa [List.isEmpty_iff] using this
          exact hne ((all_blocks_ws_iff documents).mp hall)
        · intro d hd
          rw [← hdocs2] at hd
          obtain ⟨b, hb, hbd⟩ := List.mem_map.mp hd
          have hbf := (List.mem_filter.mp hb).2
          have hbne : trimChars b ≠ [] := by
            simpa [List.isEmpty_iff] using hbf
          have hcontent : d.content = trimChars b := by rw [← hbd]
          refine ⟨by rw [hcontent]; exact hbne, ?_⟩
          rw [hcontent]
          exact exists_non_ws_of_trim_ne_nil b hbne

end AgentWeb
